import Mathlib

/-!
Verification development for the `markdown-chunkify` repository.

The development shallowly embeds the header-hierarchy splitter of
`src/markdown_chunkify/components/splitters.py` (class `MarkdownSplitter`)
and its duplicate in `src/markdown_chunkify/utils/splitters.py`.

Modelling conventions:
* Python strings are `List Char` (`Str` below); all claim inputs are ASCII.
* `str.strip` / `str.lstrip` strip the six ASCII whitespace characters
  (space, tab, newline, carriage return, vertical tab, form feed), which
  coincides with Python's behavior on ASCII text and with the character
  class `\s` of Python's `re` module on ASCII text.
* The two regular expressions of the source are embedded by faithful
  executable matchers:
  - the header pattern (#+)(\s+)(.+) anchored at line starts in MULTILINE
    mode, where the whitespace group may consume newlines (greedy with
    backtracking, exactly as Python's engine behaves);
  - the code-fence pattern of `_process_code_blocks` (triple backtick,
    lazy prefix up to the first newline, lazy body up to the next triple
    backtick, DOTALL), applied by `re.sub` left to right without overlap.
* `os.linesep` is "\n" (the library is modelled running on Linux).
* Python dicts are ordered association lists with insert-or-overwrite
  update, mirroring insertion-order semantics.
* Recursions that are not structural use explicit fuel; every wrapper
  supplies fuel that provably suffices (one unit per consumed character).
-/

namespace MarkdownChunkify

/-- Python strings are modelled as lists of characters. -/
abbrev Str := List Char

/-- Backtick character (spelled via its code point). -/
def bt : Char := Char.ofNat 96

/-- Opening curly brace character. -/
def obr : Char := Char.ofNat 123

/-- Closing curly brace character. -/
def cbr : Char := Char.ofNat 125

/-- ASCII whitespace, as recognized by Python's `str.strip` and by the
regex class `\s` on ASCII text. -/
def pyWS (c : Char) : Bool :=
  c == ' ' || c == '\t' || c == '\n' || c == '\r' ||
  c == Char.ofNat 11 || c == Char.ofNat 12

/-- Model of Python `str.lstrip()`. -/
def lstrip (s : Str) : Str := s.dropWhile pyWS

/-- Model of Python `str.rstrip()`. -/
def rstrip (s : Str) : Str := (s.reverse.dropWhile pyWS).reverse

/-- Model of Python `str.strip()`. -/
def strip (s : Str) : Str := rstrip (lstrip s)

/-- Model of Python `str.split("\n")`: split at every newline, keeping
empty pieces, never dropping anything. -/
def splitNL : Str → List Str
  | [] => [[]]
  | c :: rest =>
    let r := splitNL rest
    if c = '\n' then [] :: r
    else
      match r with
      | [] => [[c]]
      | h :: t => (c :: h) :: t

/-- Model of Python `"\n".join(lines)`. -/
def joinNL : List Str → Str
  | [] => []
  | [l] => l
  | l :: l2 :: ls => l ++ '\n' :: joinNL (l2 :: ls)

/-- Boolean list-prefix test (Python `str.startswith` on the tail of a
scan position). -/
def isPre : Str → Str → Bool
  | [], _ => true
  | _ :: _, [] => false
  | p :: ps, c :: cs => p == c && isPre ps cs

/-- Split a string at the first occurrence of `pat`, returning the part
before and the part after the occurrence. Returns `none` when `pat` does
not occur. This models a lazy (shortest-match) regex group followed by a
literal. -/
def splitFirst (pat : Str) : Str → Option (Str × Str)
  | [] => if isPre pat [] then some ([], []) else none
  | c :: rest =>
    if isPre pat (c :: rest) then some ([], (c :: rest).drop pat.length)
    else (splitFirst pat rest).map fun p => (c :: p.1, p.2)

/-! Header pattern.

The source compiles `re.compile(r"^(#+)\s+(.+)$", re.MULTILINE)`.
A match attempt at a line-start position proceeds exactly as Python's
backtracking engine does: the `#` run is maximal (shorter runs cannot be
followed by whitespace), the whitespace run is maximal-then-backtracked
until the `.+` group can start with a character other than newline, and
the `.+` group extends greedily to the end of that line. -/

/-- Length of the leading run of `#` characters. -/
def hashRun : Str → Nat
  | [] => 0
  | c :: r => if c = '#' then hashRun r + 1 else 0

/-- Length of the leading run of whitespace characters. -/
def wsRun : Str → Nat
  | [] => 0
  | c :: r => if pyWS c then wsRun r + 1 else 0

/-- The rest of the current line: characters up to the next newline. -/
def takeLine (s : Str) : Str := s.takeWhile (fun c => !(c == '\n'))

/-- Backtracking choice of how much whitespace `\s+` consumes: the largest
`j` with `1 ≤ j ≤ w` such that the character after the consumed
whitespace exists and is not a newline (so that `(.+)` can match). -/
def pickJ (rest : Str) : Nat → Option Nat
  | 0 => none
  | j + 1 =>
    match (rest.drop (j + 1)).head? with
    | some c => if c = '\n' then pickJ rest j else some (j + 1)
    | none => pickJ rest j

/-- Attempt to match the header pattern at a line-start position.
On success, returns the count of `#` marks, the number of whitespace
characters consumed by `\s+`, and the raw text of group 2. -/
def tryHeader (s : Str) : Option (Nat × Nat × Str) :=
  let k := hashRun s
  if k = 0 then none
  else
    let rest := s.drop k
    match pickJ rest (wsRun rest) with
    | none => none
    | some j => some (k, j, takeLine (rest.drop j))

/-- Scan for all header matches (model of `finditer`), fueled.
`atStart` records whether the current position is a line start.
Returns the text before the first match together with the list of
matches; each match carries its level, its raw group-2 text, and the raw
text between its end and the start of the next match (or the end of the
input for the last match). -/
def scanHeadersF : Nat → Bool → Str → Str × List (Nat × Str × Str)
  | 0, _, s => (s, [])
  | fuel + 1, atStart, s =>
    match s with
    | [] => ([], [])
    | c :: rest =>
      match (if atStart then tryHeader s else none) with
      | some (k, j, g2) =>
        let len := k + j + g2.length
        let r := scanHeadersF fuel false (s.drop len)
        ([], (k, g2, r.1) :: r.2)
      | none =>
        let r := scanHeadersF fuel (c == '\n') rest
        (c :: r.1, r.2)

/-- Scan for all header matches in `s` (fuel supplied). -/
def scanHeaders (atStart : Bool) (s : Str) : Str × List (Nat × Str × Str) :=
  scanHeadersF (s.length + 1) atStart s

/-! Code-block masking, `MarkdownSplitter._process_code_blocks`. -/

/-- The literal sequence of three backticks. -/
def triple : Str := [bt, bt, bt]

/-- Test from the source: `line.lstrip().startswith("#")`. -/
def isCommentLine (line : Str) : Bool :=
  match lstrip line with
  | [] => false
  | c :: _ => c == '#'

/-- Masking token for counter value `n`: the source builds
`f"{{{{CODE_COMMENT_{counter}}}}}"`, i.e. two opening braces,
`CODE_COMMENT_`, the decimal counter, and two closing braces. -/
def tokenStr (n : Nat) : Str :=
  obr :: obr :: ("CODE_COMMENT_".data ++ (Nat.repr n).data ++ [cbr, cbr])

/-- Per-block loop of `replace_comments`: walk the body lines, replacing
each comment line by a fresh token and recording the token against the
original line, in encounter order. -/
def maskLines (counter : Nat) : List Str → List Str × List (Str × Str) × Nat
  | [] => ([], [], counter)
  | line :: rest =>
    if isCommentLine line then
      let tok := tokenStr counter
      let r := maskLines (counter + 1) rest
      (tok :: r.1, (tok, line) :: r.2.1, r.2.2)
    else
      let r := maskLines counter rest
      (line :: r.1, r.2.1, r.2.2)

/-- Attempt the code-fence pattern just after an opening triple backtick:
the lazy prefix extends to the first newline, and the lazy body extends
to the first closing triple backtick after it. Returns
(prefix, body, text after the closing fence). -/
def cbMatch (tail : Str) : Option (Str × Str × Str) :=
  match splitFirst ['\n'] tail with
  | none => none
  | some (pre, afterNL) =>
    match splitFirst triple afterNL with
    | none => none
    | some (body, rest) => some (pre, body, rest)

/-- Attempt the full code-fence pattern at the current position. -/
def cbTry (s : Str) : Option (Str × Str × Str) :=
  if isPre triple s then cbMatch (s.drop 3) else none

/-- Fueled model of
`re.sub(r"```(?:.*?)\n(.*?)```", replace_comments, text, flags=re.DOTALL)`:
scan left to right; at each match, emit the replacement
(three backticks, the newline-joined processed body lines, three
backticks — the matched language prefix and its newline are not part of
the replacement) and continue after the match; otherwise advance one
character. Also returns the accumulated replacement map in insertion
order. -/
def cbSubF : Nat → Nat → Str → Str × List (Str × Str)
  | 0, _, s => (s, [])
  | fuel + 1, counter, s =>
    match s with
    | [] => ([], [])
    | c :: rest =>
      match cbTry s with
      | some (_, body, afterBlock) =>
        let m := maskLines counter (splitNL body)
        let r := cbSubF fuel m.2.2 afterBlock
        (triple ++ joinNL m.1 ++ triple ++ r.1, m.2.1 ++ r.2)
      | none =>
        let r := cbSubF fuel counter rest
        (c :: r.1, r.2)

/-- Model of `MarkdownSplitter._process_code_blocks` (fuel supplied). -/
def processCodeBlocks (s : Str) : Str × List (Str × Str) :=
  cbSubF (s.length + 1) 0 s

/-! Token replacement and the parent-header dictionary. -/

/-- Fueled model of Python `str.replace(pat, rep)`: left-to-right,
non-overlapping, the replacement text is not rescanned. -/
def replaceAllF : Nat → Str → Str → Str → Str
  | 0, _, _, s => s
  | fuel + 1, pat, rep, s =>
    match s with
    | [] => []
    | c :: rest =>
      if pat ≠ [] && isPre pat (c :: rest) then
        rep ++ replaceAllF fuel pat rep ((c :: rest).drop pat.length)
      else
        c :: replaceAllF fuel pat rep rest

/-- Model of Python `str.replace(pat, rep)` (fuel supplied). -/
def replaceAll (pat rep s : Str) : Str := replaceAllF s.length pat rep s

/-- Loop of `split_text` restoring original code comments: iterate the
replacement map in insertion order, replacing every occurrence of each
token. -/
def unmask (rmap : List (Str × Str)) (s : Str) : Str :=
  rmap.foldl (fun acc p => replaceAll p.1 p.2 acc) s

/-- Key string `f"h{i}"`. -/
def hKey (i : Nat) : Str := 'h' :: (Nat.repr i).data

/-- Python dict assignment on an ordered association list: overwrite in
place when the key is present, append otherwise. -/
def dictSet (k : Str) (v : Option Str) : List (Str × Option Str) → List (Str × Option Str)
  | [] => [(k, v)]
  | (k', v') :: rest =>
    if k' = k then (k', v) :: rest else (k', v') :: dictSet k v rest

/-- Model of `MarkdownSplitter._find_parent_headers` followed by the
pruning of `None` entries performed by `split_text`: initialize keys
`h1`..`h4` to `None`, walk the stack bottom to top assigning
`parents[f"h{level}"] = header` whenever `level < current`, then keep
only the entries with a value. The stack argument is stored top-first,
so the bottom-to-top walk of the source iterates its reverse. -/
def findParentHeaders (current : Nat) (stack : List (Nat × Str)) : List (Str × Str) :=
  let init : List (Str × Option Str) :=
    [(hKey 1, none), (hKey 2, none), (hKey 3, none), (hKey 4, none)]
  let d := stack.reverse.foldl
    (fun d e => if e.1 < current then dictSet (hKey e.1) (some e.2) d else d) init
  d.filterMap fun p => p.2.map fun v => (p.1, v)

/-- A Markdown section as produced by `split_text`: header text, body
text, header level, and the pruned parents mapping (an ordered list of
key/value pairs, mirroring the Python dict). -/
structure Section where
  section_header : Str
  section_text : Str
  header_level : Nat
  parents : List (Str × Str)
deriving Repr, DecidableEq

/-- Model of `MarkdownSection.to_markdown` from `utils/splitters.py` and
`Section.to_markdown` from `core/models.py`:
`f"{'#' * self.header_level} {self.section_header}\n\n{self.section_text}"`. -/
def toMarkdown (s : Section) : Str :=
  List.replicate s.header_level '#' ++ ' ' :: s.section_header ++
    '\n' :: '\n' :: s.section_text

/-- Per-header loop of `split_text`: for each match, extract and strip
the section body, restore code comments, pop every stack entry whose
level is greater than or equal to the current level, push the current
header, compute the parents, and emit the section. The stack is stored
top-first, so the source's pop-from-the-end loop is `dropWhile` here. -/
def buildSections (rmap : List (Str × Str)) :
    List (Nat × Str × Str) → List (Nat × Str) → List Section
  | [], _ => []
  | (k, g2, gap) :: ms, stack =>
    let headerText := strip g2
    let sectionText := unmask rmap (strip gap)
    let stack1 := stack.dropWhile (fun e => k ≤ e.1)
    let stack2 := (k, headerText) :: stack1
    let parents := findParentHeaders k stack2
    { section_header := headerText, section_text := sectionText,
      header_level := k, parents := parents } :: buildSections rmap ms stack2

/-- Model of `MarkdownSplitter.split_text` from
`components/splitters.py`: return `[]` for input that is empty after
stripping; otherwise mask code blocks, find all header matches in the
masked text, and build the sections (text before the first header is
discarded). -/
def splitText (text : Str) : List Section :=
  if strip text = [] then []
  else
    buildSections (processCodeBlocks text).2
      (scanHeaders true (processCodeBlocks text).1).2 []

/-- Entry point on Lean strings. -/
def split (s : String) : List Section := splitText s.data

/-- Substring test: `pat` occurs somewhere in `s` (Python `pat in s`). -/
def containsSub (pat s : Str) : Bool := (splitFirst pat s).isSome

/-- The masking-token delimiter `{{CODE_COMMENT_`, shared by every
generated token. -/
def tokenDelim : Str := obr :: obr :: "CODE_COMMENT_".data

/-- Modelled from the spec for comparison with the source (claims C5 and
C8): a single line that "consists of one or more leading `#` characters
followed by at least one whitespace character and then non-empty
trailing text". -/
def specHeaderLine (line : Str) : Bool :=
  let k := hashRun line
  let rest := line.drop k
  let w := wsRun rest
  decide (1 ≤ k) && decide (1 ≤ w) && !(rest.drop w).isEmpty

/-- Check that no line-start position of `s` carries a `#` character; the
Boolean argument records whether the current position is a line start.
Under this condition the header pattern cannot match anywhere in `s`. -/
def hashFree : Bool → Str → Bool
  | _, [] => true
  | true, c :: r => !(c == '#') && hashFree (c == '\n') r
  | false, c :: r => hashFree (c == '\n') r

/-- Line-start state after scanning `s` starting from state `b`: the
position after `s` is a line start exactly when `s` ends with a newline
(or is empty and `b` already was a line start). -/
def endState : Bool → Str → Bool
  | b, [] => b
  | _, c :: r => endState (c == '\n') r

/-- Text contributed before an element by `"\n".join`: the joined
earlier lines followed by a newline, or nothing when there are none. -/
def joinPre (xs : List Str) : Str :=
  if xs.isEmpty then [] else joinNL xs ++ ['\n']

/-- Text contributed after an element by `"\n".join`: a newline followed
by the joined later lines, or nothing when there are none. -/
def joinPost (ys : List Str) : Str :=
  if ys.isEmpty then [] else '\n' :: joinNL ys

/-! Duplicate splitter variant.

The file `src/markdown_chunkify/utils/splitters.py` carries a second
`MarkdownSplitter` whose `_find_parent_headers`, `_process_code_blocks`
and `split_text` bodies repeat those of `components/splitters.py`
statement for statement (the only differences are logging calls and the
section class used, a local dataclass with the same four fields). The
namespace below embeds that variant on its own so that claim C10 can
compare the two. The shared string primitives and the regex-engine
models are reused: both files compile the identical patterns. -/

namespace Utils

/-- Comment test of the utils variant (`line.lstrip().startswith("#")`). -/
def isCommentLine (line : Str) : Bool :=
  match lstrip line with
  | [] => false
  | c :: _ => c == '#'

/-- Masking token of the utils variant. -/
def tokenStr (n : Nat) : Str :=
  obr :: obr :: ("CODE_COMMENT_".data ++ (Nat.repr n).data ++ [cbr, cbr])

/-- Per-block masking loop of the utils variant. -/
def maskLines (counter : Nat) : List Str → List Str × List (Str × Str) × Nat
  | [] => ([], [], counter)
  | line :: rest =>
    if isCommentLine line then
      let tok := tokenStr counter
      let r := maskLines (counter + 1) rest
      (tok :: r.1, (tok, line) :: r.2.1, r.2.2)
    else
      let r := maskLines counter rest
      (line :: r.1, r.2.1, r.2.2)

/-- Fueled `re.sub` scan of the utils variant. -/
def cbSubF : Nat → Nat → Str → Str × List (Str × Str)
  | 0, _, s => (s, [])
  | fuel + 1, counter, s =>
    match s with
    | [] => ([], [])
    | c :: rest =>
      match cbTry s with
      | some (_, body, afterBlock) =>
        let m := maskLines counter (splitNL body)
        let r := cbSubF fuel m.2.2 afterBlock
        (triple ++ joinNL m.1 ++ triple ++ r.1, m.2.1 ++ r.2)
      | none =>
        let r := cbSubF fuel counter rest
        (c :: r.1, r.2)

/-- Model of `_process_code_blocks` of the utils variant. -/
def processCodeBlocks (s : Str) : Str × List (Str × Str) :=
  cbSubF (s.length + 1) 0 s

/-- Model of `_find_parent_headers` of the utils variant, with the
`None` pruning performed by its `split_text`. -/
def findParentHeaders (current : Nat) (stack : List (Nat × Str)) : List (Str × Str) :=
  let init : List (Str × Option Str) :=
    [(hKey 1, none), (hKey 2, none), (hKey 3, none), (hKey 4, none)]
  let d := stack.reverse.foldl
    (fun d e => if e.1 < current then dictSet (hKey e.1) (some e.2) d else d) init
  d.filterMap fun p => p.2.map fun v => (p.1, v)

/-- Per-header loop of the utils variant's `split_text`. -/
def buildSections (rmap : List (Str × Str)) :
    List (Nat × Str × Str) → List (Nat × Str) → List Section
  | [], _ => []
  | (k, g2, gap) :: ms, stack =>
    let headerText := strip g2
    let sectionText := unmask rmap (strip gap)
    let stack1 := stack.dropWhile (fun e => k ≤ e.1)
    let stack2 := (k, headerText) :: stack1
    let parents := findParentHeaders k stack2
    { section_header := headerText, section_text := sectionText,
      header_level := k, parents := parents } :: buildSections rmap ms stack2

/-- Model of `MarkdownSplitter.split_text` from `utils/splitters.py`. -/
def splitText (text : Str) : List Section :=
  if strip text = [] then []
  else
    buildSections (processCodeBlocks text).2
      (scanHeaders true (processCodeBlocks text).1).2 []

end Utils

/-! File-loading entry point.

`MarkdownSplitter.from_file` touches the file system, which the shallow
embedding represents by an abstract path state: whether the path exists,
whether it is a directory, and the outcome of reading it (text, or an
error such as a decoding failure). The control flow below mirrors the
source: the two path checks run before the read is consulted, and a read
error propagates untranslated. -/

/-- Abstract state of the path handed to `from_file`. -/
structure PathState where
  pathIsPresent : Bool
  pathIsDir : Bool
  readOutcome : Except String String

/-- Error kinds raised by `from_file`: `FileNotFoundError`,
`IsADirectoryError`, or an untranslated error from the underlying read. -/
inductive FileError where
  | notFound (msg : String)
  | isADirectory (msg : String)
  | readFailure (msg : String)
deriving Repr, DecidableEq

/-- Model of `MarkdownSplitter.from_file` from `components/splitters.py`. -/
def fromFile (path : String) (st : PathState) : Except FileError (List Section) :=
  if st.pathIsPresent = false then
    .error (.notFound ("Unable to find the Markdown in the specified location: " ++ path))
  else if st.pathIsDir = true then
    .error (.isADirectory ("The provided path is a directory: " ++ path))
  else
    match st.readOutcome with
    | .error e => .error (.readFailure e)
    | .ok content => .ok (split content)

/-! Theorems. -/

/-! General helper lemmas about the string primitives. -/

theorem splitNL_ne_nil (s : Str) : splitNL s ≠ [] := by
  cases s with
  | nil => simp [splitNL]
  | cons c rest =>
    simp only [splitNL]
    by_cases h : c = '\n'
    · simp [h]
    · simp only [if_neg h]
      cases hr : splitNL rest <;> simp

theorem joinNL_splitNL (s : Str) : joinNL (splitNL s) = s := by
  induction s with
  | nil => rfl
  | cons c rest ih =>
    simp only [splitNL]
    by_cases h : c = '\n'
    · subst h
      simp only [if_pos rfl]
      cases hr : splitNL rest with
      | nil => exact absurd hr (splitNL_ne_nil rest)
      | cons l ls =>
        simp only [joinNL]
        rw [← hr, ih]
        rfl
    · simp only [if_neg h]
      cases hr : splitNL rest with
      | nil => exact absurd hr (splitNL_ne_nil rest)
      | cons l ls =>
        rw [hr] at ih
        cases ls with
        | nil => simp only [joinNL] at ih ⊢; rw [ih]
        | cons l2 ls2 => simp only [joinNL] at ih ⊢; simp [← List.cons_append, ih]

theorem maskLines_of_no_comments (c : Nat) (ls : List Str)
    (h : ∀ line ∈ ls, isCommentLine line = false) :
    maskLines c ls = (ls, [], c) := by
  induction ls generalizing c with
  | nil => rfl
  | cons line rest ih =>
    have h1 : isCommentLine line = false := h line (by simp)
    simp only [maskLines, h1, Bool.false_eq_true, if_false,
      ih c (fun l hl => h l (by simp [hl]))]

theorem maskLines_entry_mem (c : Nat) (ls : List Str) (tok orig : Str)
    (h : (tok, orig) ∈ (maskLines c ls).2.1) :
    orig ∈ ls ∧ isCommentLine orig = true := by
  induction ls generalizing c with
  | nil => simp [maskLines] at h
  | cons line rest ih =>
    by_cases hc : isCommentLine line
    · simp only [maskLines, hc, if_true, List.mem_cons] at h
      rcases h with h | h
      · rw [Prod.mk.injEq] at h
        obtain ⟨-, h2⟩ := h
        subst h2
        exact ⟨by simp, hc⟩
      · obtain ⟨h1, h2⟩ := ih (c + 1) h
        exact ⟨by simp [h1], h2⟩
    · simp only [maskLines, hc, if_false] at h
      obtain ⟨h1, h2⟩ := ih c h
      exact ⟨by simp [h1], h2⟩

/-! Lemmas about pattern occurrence, splitting, and replacement. -/

theorem isPre_append_self : ∀ (p z : Str), isPre p (p ++ z) = true
  | [], _ => rfl
  | c :: cs, z => by simp [isPre, isPre_append_self cs z]

theorem splitFirst_at_first (p : Char) (pt : Str) : ∀ (x y : Str), p ∉ x →
    splitFirst (p :: pt) (x ++ ((p :: pt) ++ y)) = some (x, y) := by
  intro x
  induction x with
  | nil =>
    intro y _
    show splitFirst (p :: pt) (p :: (pt ++ y)) = some ([], y)
    have h1 : isPre (p :: pt) (p :: (pt ++ y)) = true := isPre_append_self (p :: pt) y
    simp only [splitFirst, h1, if_true]
    have h2 : List.drop (p :: pt).length (p :: (pt ++ y)) = y := by
      simp only [List.length_cons, List.drop_succ_cons, List.drop_left]
    rw [h2]
  | cons c x2 ih =>
    intro y hx
    show splitFirst (p :: pt) (c :: (x2 ++ ((p :: pt) ++ y))) = some (c :: x2, y)
    have hc : (p == c) = false := by
      simp only [beq_eq_false_iff_ne, ne_eq]
      intro h
      exact hx (h ▸ List.mem_cons_self c x2)
    have h2 : isPre (p :: pt) (c :: (x2 ++ ((p :: pt) ++ y))) = false := by
      simp [isPre, hc]
    simp only [splitFirst, h2, Bool.false_eq_true, if_false,
      ih y (fun h => hx (List.mem_cons_of_mem c h))]
    rfl

theorem splitFirst_none_of_no_head (p : Char) (pt : Str) : ∀ s : Str,
    (∀ c ∈ s, c ≠ p) → splitFirst (p :: pt) s = none := by
  intro s
  induction s with
  | nil => intro _; rfl
  | cons c r ih =>
    intro h
    have hc : (p == c) = false := by
      simp only [beq_eq_false_iff_ne, ne_eq]
      exact fun hpc => (h c (List.mem_cons_self c r)) hpc.symm
    have h2 : isPre (p :: pt) (c :: r) = false := by simp [isPre, hc]
    simp only [splitFirst, h2, Bool.false_eq_true, if_false,
      ih (fun d hd => h d (List.mem_cons_of_mem c hd))]
    rfl

theorem mem_joinNL (c : Char) : ∀ ls : List Str, c ∈ joinNL ls →
    c = '\n' ∨ ∃ l ∈ ls, c ∈ l := by
  intro ls
  induction ls with
  | nil => intro h; simp [joinNL] at h
  | cons l rest ih =>
    intro h
    cases rest with
    | nil =>
      simp only [joinNL] at h
      exact Or.inr ⟨l, by simp, h⟩
    | cons l2 rest2 =>
      simp only [joinNL, List.mem_append, List.mem_cons] at h
      rcases h with h | h | h
      · exact Or.inr ⟨l, by simp, h⟩
      · exact Or.inl h
      · rcases ih h with h2 | ⟨l3, hl3, hc3⟩
        · exact Or.inl h2
        · exact Or.inr ⟨l3, List.mem_cons_of_mem l hl3, hc3⟩

theorem splitNL_no_nl : ∀ l : Str, '\n' ∉ l → splitNL l = [l] := by
  intro l
  induction l with
  | nil => intro _; rfl
  | cons c r ih =>
    intro h
    have hc : ¬c = '\n' := fun hcc => h (by simp [hcc])
    simp only [splitNL, if_neg hc, ih (fun hr => h (List.mem_cons_of_mem c hr))]

theorem splitNL_append_nl : ∀ (l w : Str), '\n' ∉ l →
    splitNL (l ++ '\n' :: w) = l :: splitNL w := by
  intro l
  induction l with
  | nil => intro w _; simp [splitNL]
  | cons c r ih =>
    intro w h
    have hc : ¬c = '\n' := fun hcc => h (by simp [hcc])
    show splitNL (c :: (r ++ '\n' :: w)) = (c :: r) :: splitNL w
    simp only [splitNL, if_neg hc]
    rw [ih w (fun hr => h (List.mem_cons_of_mem c hr))]

theorem splitNL_joinNL_inv : ∀ ls : List Str, ls ≠ [] →
    (∀ l ∈ ls, '\n' ∉ l) → splitNL (joinNL ls) = ls := by
  intro ls
  induction ls with
  | nil => intro h _; exact absurd rfl h
  | cons l rest ih =>
    intro _ h
    cases rest with
    | nil => exact splitNL_no_nl l (h l (by simp))
    | cons l2 rest2 =>
      simp only [joinNL]
      rw [splitNL_append_nl _ _ (h l (by simp))]
      rw [ih (by simp) (fun x hx => h x (List.mem_cons_of_mem l hx))]

theorem maskLines_append_nc (ct : Nat) : ∀ (xs ys : List Str),
    (∀ l ∈ xs, isCommentLine l = false) →
    maskLines ct (xs ++ ys) =
      (xs ++ (maskLines ct ys).1, (maskLines ct ys).2.1, (maskLines ct ys).2.2) := by
  intro xs
  induction xs with
  | nil => intro ys _; rfl
  | cons l rest ih =>
    intro ys h
    have hl : isCommentLine l = false := h l (by simp)
    show maskLines ct (l :: (rest ++ ys)) = _
    simp only [maskLines, hl, Bool.false_eq_true, if_false,
      ih ys (fun x hx => h x (List.mem_cons_of_mem l hx))]
    rfl

theorem replaceAllF_id_of_no_head (p : Char) (pt rep : Str) : ∀ (s : Str) (fuel : Nat),
    (∀ c ∈ s, c ≠ p) → replaceAllF fuel (p :: pt) rep s = s := by
  intro s
  induction s with
  | nil => intro fuel _; cases fuel <;> rfl
  | cons c r ih =>
    intro fuel h
    cases fuel with
    | zero => rfl
    | succ f =>
      have hc : (p == c) = false := by
        simp only [beq_eq_false_iff_ne, ne_eq]
        exact fun hpc => (h c (List.mem_cons_self c r)) hpc.symm
      have h2 : isPre (p :: pt) (c :: r) = false := by simp [isPre, hc]
      simp only [replaceAllF, h2, Bool.and_false, Bool.false_eq_true, if_false,
        ih f (fun d hd => h d (List.mem_cons_of_mem c hd))]

theorem replaceAllF_exact (p : Char) (pt rep : Str) : ∀ (x : Str) (y : Str) (fuel : Nat),
    (∀ c ∈ x, c ≠ p) → (∀ c ∈ y, c ≠ p) → x.length < fuel →
    replaceAllF fuel (p :: pt) rep (x ++ (p :: pt) ++ y) = x ++ rep ++ y := by
  intro x
  induction x with
  | nil =>
    intro y fuel _ hy hfuel
    obtain ⟨f, rfl⟩ : ∃ f, fuel = f + 1 := ⟨fuel - 1, by omega⟩
    show replaceAllF (f + 1) (p :: pt) rep (p :: (pt ++ y)) = [] ++ rep ++ y
    have h1 : isPre (p :: pt) (p :: (pt ++ y)) = true := isPre_append_self (p :: pt) y
    simp only [replaceAllF, h1, Bool.and_true, List.nil_append]
    rw [if_pos (by simp)]
    have h2 : List.drop (p :: pt).length (p :: (pt ++ y)) = y := by
      simp only [List.length_cons, List.drop_succ_cons, List.drop_left]
    rw [h2, replaceAllF_id_of_no_head p pt rep y f hy]
  | cons c x2 ih =>
    intro y fuel hx hy hfuel
    obtain ⟨f, rfl⟩ : ∃ f, fuel = f + 1 := ⟨fuel - 1, by omega⟩
    have hc : (p == c) = false := by
      simp only [beq_eq_false_iff_ne, ne_eq]
      exact fun hpc => (hx c (List.mem_cons_self c x2)) hpc.symm
    have h2 : isPre (p :: pt) (c :: (x2 ++ ((p :: pt) ++ y))) = false := by
      simp [isPre, hc]
    simp only [List.cons_append, List.append_assoc, replaceAllF] at *
    simp only [h2, Bool.and_false, Bool.false_eq_true, if_false]
    have := ih y f (fun d hd => hx d (List.mem_cons_of_mem c hd)) hy
      (by simp at hfuel; omega)
    simp only [List.append_assoc] at this
    rw [this]

/-! Lemmas about line-start states and `hashFree` across joins. -/

theorem hashFree_append : ∀ (x : Str) (b : Bool) (y : Str), hashFree b x = true →
    hashFree (endState b x) y = true → hashFree b (x ++ y) = true := by
  intro x
  induction x with
  | nil => intro b y _ hy; exact hy
  | cons c x2 ih =>
    intro b y hx hy
    cases b with
    | false =>
      simp only [hashFree] at hx ⊢
      exact ih (c == '\n') y hx (by simpa [endState] using hy)
    | true =>
      simp only [hashFree, Bool.and_eq_true] at hx ⊢
      exact ⟨hx.1, ih (c == '\n') y hx.2 (by simpa [endState] using hy)⟩

theorem hashFree_no_nl : ∀ (m : Str), '\n' ∉ m →
    ∀ b : Bool, (b = true → m.head? ≠ some '#') → hashFree b m = true := by
  intro m
  induction m with
  | nil => intro _ b _; cases b <;> rfl
  | cons c r ih =>
    intro hm b hb
    have hcn : (c == '\n') = false := by
      simp only [beq_eq_false_iff_ne, ne_eq]
      exact fun h => hm (by simp [h])
    have hr : hashFree false r = true := by
      have := ih (fun h => hm (List.mem_cons_of_mem c h)) false (by simp)
      exact this
    cases b with
    | false =>
      simp only [hashFree, hcn]
      exact hr
    | true =>
      have hc : ¬(c = '#') := by
        intro hcc
        exact (hb rfl) (by simp [hcc])
      simp only [hashFree, hcn, Bool.and_eq_true]
      exact ⟨by simpa using hc, hr⟩

theorem endState_cons_eq (b b2 : Bool) (c : Char) (r : Str)
    (h : endState (c == '\n') r = b2) : endState b (c :: r) = b2 := h

theorem endState_no_nl : ∀ (m : Str), '\n' ∉ m → m ≠ [] →
    ∀ b : Bool, endState b m = false := by
  intro m
  induction m with
  | nil => intro _ h _; exact absurd rfl h
  | cons c r ih =>
    intro hm _ b
    have hcn : (c == '\n') = false := by
      simp only [beq_eq_false_iff_ne, ne_eq]
      exact fun h => hm (by simp [h])
    cases r with
    | nil => simpa [endState] using hcn
    | cons c2 r2 =>
      simp only [endState]
      exact ih (fun h => hm (List.mem_cons_of_mem c h)) (by simp) (c == '\n')

theorem hashFree_nl_cons (w : Str) : ∀ b : Bool,
    hashFree b ('\n' :: w) = hashFree true w := by
  intro b
  cases b <;> simp [hashFree]

theorem hashFree_joinNL : ∀ ms : List Str, (∀ l ∈ ms, l.head? ≠ some '#') →
    (∀ l ∈ ms, '\n' ∉ l) → ∀ b : Bool, hashFree b (joinNL ms) = true := by
  intro ms
  induction ms with
  | nil => intro _ _ b; cases b <;> rfl
  | cons m rest ih =>
    intro hh hn b
    cases rest with
    | nil =>
      simp only [joinNL]
      exact hashFree_no_nl m (hn m (by simp)) b (fun _ => hh m (by simp))
    | cons m2 rest2 =>
      simp only [joinNL]
      refine hashFree_append m b _ ?_ ?_
      · exact hashFree_no_nl m (hn m (by simp)) b (fun _ => hh m (by simp))
      · rw [hashFree_nl_cons]
        exact ih (fun l hl => hh l (List.mem_cons_of_mem m hl))
          (fun l hl => hn l (List.mem_cons_of_mem m hl)) true

theorem rstrip_append_last (x : Str) (a : Char) (ha : pyWS a = false) :
    rstrip (x ++ [a]) = x ++ [a] := by
  rw [rstrip]
  have h1 : (x ++ [a]).reverse = a :: x.reverse := by simp
  rw [h1]
  simp only [List.dropWhile_cons, ha, Bool.false_eq_true, if_false]
  rw [← h1, List.reverse_reverse]

theorem joinNL_decomp : ∀ (xs : List Str) (m : Str) (ys : List Str),
    joinNL (xs ++ m :: ys) = joinPre xs ++ (m ++ joinPost ys) := by
  intro xs
  induction xs with
  | nil =>
    intro m ys
    cases ys with
    | nil => simp [joinNL, joinPre, joinPost]
    | cons y ys2 => simp [joinNL, joinPre, joinPost]
  | cons x xs2 ih =>
    intro m ys
    have hne : xs2 ++ m :: ys ≠ [] := by simp
    cases hx : xs2 ++ m :: ys with
    | nil => exact absurd hx hne
    | cons z zs =>
      simp only [List.cons_append, joinNL, hx]
      rw [← hx, ih m ys]
      cases xs2 with
      | nil => simp [joinPre, joinNL, List.append_assoc]
      | cons x2 xs3 =>
        simp only [joinPre, List.isEmpty_cons, joinNL, if_false]
        simp [List.append_assoc]

/-! Lemmas about the header matcher. -/

theorem take_hashRun (s : Str) : s.take (hashRun s) = List.replicate (hashRun s) '#' := by
  induction s with
  | nil => rfl
  | cons c rest ih =>
    by_cases h : c = '#'
    · subst h
      simp [hashRun, List.replicate_succ, List.take_succ_cons, ih]
    · simp [hashRun, h]

theorem pickJ_spec (rest : Str) : ∀ (w j : Nat), pickJ rest w = some j →
    1 ≤ j ∧ j ≤ w ∧ ∃ c, (rest.drop j).head? = some c ∧ c ≠ '\n' := by
  intro w
  induction w with
  | zero => intro j h; simp [pickJ] at h
  | succ w ih =>
    intro j h
    cases hh : (rest.drop (w + 1)).head? with
    | none =>
      simp only [pickJ, hh] at h
      obtain ⟨h1, h2, h3⟩ := ih j h
      exact ⟨h1, by omega, h3⟩
    | some c =>
      by_cases hc : c = '\n'
      · simp only [pickJ, hh, if_pos hc] at h
        obtain ⟨h1, h2, h3⟩ := ih j h
        exact ⟨h1, by omega, h3⟩
      · simp only [pickJ, hh, if_neg hc] at h
        cases h
        exact ⟨by omega, le_refl _, c, hh, hc⟩

theorem take_le_wsRun (s : Str) : ∀ (j : Nat), j ≤ wsRun s →
    ∀ c ∈ s.take j, pyWS c = true := by
  induction s with
  | nil => intro j _ c hc; simp at hc
  | cons a rest ih =>
    intro j hj c hc
    cases j with
    | zero => simp at hc
    | succ j0 =>
      by_cases ha : pyWS a
      · simp only [List.take_succ_cons, List.mem_cons] at hc
        rcases hc with rfl | hc
        · exact ha
        · simp only [wsRun, ha, if_true] at hj
          exact ih j0 (by omega) c hc
      · simp [wsRun, ha] at hj

theorem takeLine_no_newline (s : Str) : '\n' ∉ takeLine s := by
  intro h
  have := List.mem_takeWhile_imp h
  simp at this

theorem takeLine_ne_nil (s : Str) (c : Char) (h1 : s.head? = some c)
    (h2 : c ≠ '\n') : takeLine s ≠ [] := by
  cases s with
  | nil => simp at h1
  | cons a rest =>
    simp only [List.head?_cons, Option.some.injEq] at h1
    subst h1
    simp [takeLine, List.takeWhile_cons, h2]

theorem tryHeader_sound (s : Str) (k j : Nat) (g2 : Str)
    (h : tryHeader s = some (k, j, g2)) :
    1 ≤ k ∧ s.take k = List.replicate k '#' ∧ 1 ≤ j ∧
      (∀ c ∈ (s.drop k).take j, pyWS c = true) ∧ g2 ≠ [] ∧ '\n' ∉ g2 ∧
      g2 = takeLine ((s.drop k).drop j) := by
  simp only [tryHeader] at h
  by_cases hk : hashRun s = 0
  · simp [hk] at h
  · rw [if_neg hk] at h
    cases hp : pickJ (s.drop (hashRun s)) (wsRun (s.drop (hashRun s))) with
    | none => rw [hp] at h; cases h
    | some j0 =>
      rw [hp] at h
      cases h
      obtain ⟨hj1, hj2, c, hc1, hc2⟩ := pickJ_spec _ _ _ hp
      refine ⟨by omega, take_hashRun s, hj1, take_le_wsRun _ _ hj2, ?_, ?_, rfl⟩
      · exact takeLine_ne_nil _ c (by simpa using hc1) hc2
      · exact takeLine_no_newline _

/-! Lemmas about masking on backtick-free text. -/

theorem cbTry_eq_none (c : Char) (rest : Str) (hc : c ≠ bt) :
    cbTry (c :: rest) = none := by
  have : isPre triple (c :: rest) = false := by
    simp only [triple, isPre, Bool.and_eq_false_iff]
    left
    simpa [beq_eq_false_iff_ne] using fun h => hc h.symm
  simp [cbTry, this]

theorem cbSubF_no_backtick : ∀ (fuel c : Nat) (s : Str), bt ∉ s →
    cbSubF fuel c s = (s, []) := by
  intro fuel
  induction fuel with
  | zero => intro c s _; rfl
  | succ f ih =>
    intro c s hs
    cases s with
    | nil => rfl
    | cons a rest =>
      have ha : a ≠ bt := fun h => hs (h ▸ List.mem_cons_self a rest)
      simp only [cbSubF, cbTry_eq_none a rest ha,
        ih c rest (fun h => hs (List.mem_cons_of_mem a h))]

theorem cbSubF_nil (fuel ct : Nat) : cbSubF fuel ct [] = ([], []) := by
  cases fuel <;> rfl

theorem cbSubF_append_no_bt : ∀ (x : Str), bt ∉ x → ∀ (fuel ct : Nat) (rest : Str),
    cbSubF (x.length + fuel) ct (x ++ rest) =
      (x ++ (cbSubF fuel ct rest).1, (cbSubF fuel ct rest).2) := by
  intro x
  induction x with
  | nil => intro _ fuel ct rest; simp
  | cons c x2 ih =>
    intro hx fuel ct rest
    have hc : c ≠ bt := fun h => hx (h ▸ List.mem_cons_self c x2)
    have harith : (c :: x2).length + fuel = (x2.length + fuel) + 1 := by
      simp [List.length_cons]
      omega
    rw [harith]
    show cbSubF ((x2.length + fuel) + 1) ct (c :: (x2 ++ rest)) = _
    simp only [cbSubF, cbTry_eq_none c _ hc,
      ih (fun h => hx (List.mem_cons_of_mem c h)) fuel ct rest]
    rfl

/-! Lemmas about stripping. -/

theorem lstrip_eq_self_of_strip (s : Str) (h : strip s = s) : lstrip s = s := by
  have h1 : (lstrip s).length ≤ s.length := (List.dropWhile_sublist _).length_le
  have h2 : (strip s).length ≤ (lstrip s).length := by
    have h3 : (List.dropWhile pyWS (lstrip s).reverse).length ≤ (lstrip s).reverse.length :=
      (List.dropWhile_sublist _).length_le
    simpa [strip, rstrip] using h3
  have h3 : (lstrip s).length = s.length := by rw [h] at h2; omega
  exact List.Sublist.eq_of_length
    (List.IsSuffix.sublist (List.dropWhile_suffix _)) h3

theorem rstrip_eq_self_of_strip (s : Str) (h : strip s = s) : rstrip s = s := by
  have h1 := lstrip_eq_self_of_strip s h
  calc rstrip s = rstrip (lstrip s) := by rw [h1]
    _ = s := h

theorem head_not_ws_of_strip (s : Str) (h : strip s = s) :
    ∀ (c : Char) (r : Str), s = c :: r → pyWS c = false := by
  intro c r hs
  subst hs
  by_cases hw : pyWS c
  · have h1 := lstrip_eq_self_of_strip _ h
    simp only [lstrip, List.dropWhile_cons, hw, if_true] at h1
    have h2 : (List.dropWhile pyWS r).length ≤ r.length := (List.dropWhile_sublist _).length_le
    have h3 : (List.dropWhile pyWS r).length = r.length + 1 := by rw [h1]; rfl
    omega
  · simpa using hw

theorem strip_cons2_nl (t : Str) (h : strip t = t) :
    strip ('\n' :: '\n' :: t) = t := by
  have hl : lstrip ('\n' :: '\n' :: t) = lstrip t := by
    simp [lstrip, List.dropWhile_cons, pyWS]
  calc strip ('\n' :: '\n' :: t) = rstrip (lstrip t) := by rw [strip, hl]
    _ = rstrip t := by rw [lstrip_eq_self_of_strip t h]
    _ = t := rstrip_eq_self_of_strip t h

theorem strip_ne_nil_of_head (c : Char) (r : Str) (hc : pyWS c = false) :
    strip (c :: r) ≠ [] := by
  intro h
  have hl : lstrip (c :: r) = c :: r := by
    simp [lstrip, List.dropWhile_cons, hc]
  rw [strip, hl, rstrip] at h
  have h2 : List.dropWhile pyWS (c :: r).reverse = [] := by
    have := congrArg List.reverse h
    simpa using this
  have h3 := (List.dropWhile_eq_nil_iff).mp h2
  have hc2 : c ∈ (c :: r).reverse := by simp
  have := h3 c hc2
  simp [hc] at this

/-! Lemmas locating header matches in the rendered Markdown of a
section. -/

theorem tryHeader_none_of_head (s : Str)
    (h : ∀ c : Char, s.head? = some c → c ≠ '#') : tryHeader s = none := by
  cases s with
  | nil => rfl
  | cons c rest =>
    have hc : c ≠ '#' := h c rfl
    simp [tryHeader, hashRun, hc]

theorem scanHeadersF_no_match : ∀ (fuel : Nat) (b : Bool) (s : Str),
    hashFree b s = true → scanHeadersF fuel b s = (s, []) := by
  intro fuel
  induction fuel with
  | zero => intro b s _; rfl
  | succ f ih =>
    intro b s hb
    cases s with
    | nil => rfl
    | cons c rest =>
      cases b with
      | false =>
        simp only [hashFree] at hb
        simp [scanHeadersF, ih (c == '\n') rest hb]
      | true =>
        simp only [hashFree, Bool.and_eq_true, bne_iff_ne, ne_eq] at hb
        obtain ⟨hc, hrest⟩ := hb
        have hno : tryHeader (c :: rest) = none :=
          tryHeader_none_of_head _ (by
            intro d hd
            simp only [List.head?_cons, Option.some.injEq] at hd
            subst hd
            simpa using hc)
        simp [scanHeadersF, hno, ih (c == '\n') rest hrest]

theorem hashFree_of_lines : ∀ s : Str,
    ((∀ l ∈ splitNL s, l.head? ≠ some '#') → hashFree true s = true) ∧
    ((∀ l ∈ (splitNL s).tail, l.head? ≠ some '#') → hashFree false s = true) := by
  intro s
  induction s with
  | nil => exact ⟨fun _ => rfl, fun _ => rfl⟩
  | cons c rest ih =>
    by_cases hc : c = '\n'
    · subst hc
      constructor
      · intro h
        have hrest : ∀ l ∈ splitNL rest, l.head? ≠ some '#' := by
          intro l hl
          exact h l (by simp only [splitNL, if_pos rfl]; exact List.mem_cons_of_mem _ hl)
        simp only [hashFree, Bool.and_eq_true]
        exact ⟨by decide, by simpa using ih.1 hrest⟩
      · intro h
        have hrest : ∀ l ∈ splitNL rest, l.head? ≠ some '#' := by
          intro l hl
          exact h l (by simp only [splitNL, if_pos rfl, List.tail_cons]; exact hl)
        simp only [hashFree]
        simpa using ih.1 hrest
    · cases hr : splitNL rest with
      | nil => exact absurd hr (splitNL_ne_nil rest)
      | cons l0 ls =>
        have hsplit : splitNL (c :: rest) = (c :: l0) :: ls := by
          simp only [splitNL, if_neg hc, hr]
        have hcb : (c == '\n') = false := by simpa using hc
        constructor
        · intro h
          have hcne : c ≠ '#' := by
            intro hcc
            exact h (c :: l0) (by rw [hsplit]; simp) (by simp [hcc])
          have hrest : ∀ l ∈ (splitNL rest).tail, l.head? ≠ some '#' := by
            intro l hl
            rw [hr, List.tail_cons] at hl
            exact h l (by rw [hsplit]; exact List.mem_cons_of_mem _ hl)
          simp only [hashFree, Bool.and_eq_true, hcb]
          exact ⟨by simpa using hcne, ih.2 hrest⟩
        · intro h
          have hrest : ∀ l ∈ (splitNL rest).tail, l.head? ≠ some '#' := by
            intro l hl
            rw [hr, List.tail_cons] at hl
            exact h l (by rw [hsplit, List.tail_cons]; exact hl)
          simp only [hashFree, hcb]
          exact ih.2 hrest

theorem hashRun_replicate_space (l : Nat) (r : Str) :
    hashRun (List.replicate l '#' ++ ' ' :: r) = l := by
  induction l with
  | zero => simp [hashRun]
  | succ n ih => simp [List.replicate_succ, hashRun, ih]

theorem drop_replicate_space (l : Nat) (r : Str) :
    (List.replicate l '#' ++ ' ' :: r).drop l = ' ' :: r := by
  have := List.drop_left (List.replicate l '#') (' ' :: r)
  rwa [List.length_replicate] at this

theorem takeLine_append (a b : Str) (h : '\n' ∉ a) :
    takeLine (a ++ '\n' :: b) = a := by
  induction a with
  | nil => simp [takeLine, List.takeWhile_cons]
  | cons c r ih =>
    have hc : c ≠ '\n' := fun hcc => h (by simp [hcc])
    have hr : '\n' ∉ r := fun hrr => h (List.mem_cons_of_mem _ hrr)
    simp only [List.cons_append, takeLine, List.takeWhile_cons]
    simpa [hc] using ih hr

theorem tryHeader_render (l : Nat) (c : Char) (hr tail2 : Str)
    (hcw : pyWS c = false) (hnl : '\n' ∉ c :: hr) :
    tryHeader (List.replicate l '#' ++ ' ' :: ((c :: hr) ++ '\n' :: tail2)) =
      if l = 0 then none else some (l, 1, c :: hr) := by
  have hcn : c ≠ '\n' := by
    intro hcc
    rw [hcc] at hcw
    simp [pyWS] at hcw
  have hk := hashRun_replicate_space l ((c :: hr) ++ '\n' :: tail2)
  have hdrop := drop_replicate_space l ((c :: hr) ++ '\n' :: tail2)
  by_cases hl : l = 0
  · subst hl
    simp [tryHeader, hashRun]
  · have hsp : pyWS ' ' = true := by decide
    have hx : wsRun (c :: (hr ++ '\n' :: tail2)) = 0 := by
      simp only [wsRun, hcw]
      simp
    have hws : wsRun (' ' :: ((c :: hr) ++ '\n' :: tail2)) = 1 := by
      simp [wsRun, hsp, hx, hcw, List.cons_append]
    have hpick : pickJ (' ' :: ((c :: hr) ++ '\n' :: tail2)) 1 = some 1 := by
      simp [pickJ, hcn]
    simp only [tryHeader, hk, if_neg hl, hdrop, hws, hpick]
    have hdrop1 : List.drop 1 (' ' :: ((c :: hr) ++ '\n' :: tail2)) =
        (c :: hr) ++ '\n' :: tail2 := rfl
    rw [hdrop1, takeLine_append _ _ hnl]

theorem scanHeadersF_after_header (f : Nat) (txt : Str) (hf : 2 ≤ f)
    (htxt : hashFree true txt = true) :
    scanHeadersF f false ('\n' :: '\n' :: txt) = ('\n' :: '\n' :: txt, []) := by
  obtain ⟨f1, rfl⟩ : ∃ f1, f = f1 + 2 := ⟨f - 2, by omega⟩
  have h1 : tryHeader ('\n' :: txt) = none := by
    refine tryHeader_none_of_head _ ?_
    intro d hd
    simp only [List.head?_cons, Option.some.injEq] at hd
    subst hd
    decide
  simp [scanHeadersF, h1, scanHeadersF_no_match f1 true txt htxt]

theorem scanHeaders_render_section (l0 : Nat) (c : Char) (hr txt : Str)
    (hcw : pyWS c = false) (hnl : '\n' ∉ c :: hr)
    (htxt : hashFree true txt = true) :
    ∀ fuel, l0 + 1 + 1 + (c :: hr).length + 2 + txt.length < fuel →
    scanHeadersF fuel true
        (List.replicate (l0 + 1) '#' ++ ' ' :: ((c :: hr) ++ '\n' :: '\n' :: txt)) =
      ([], [(l0 + 1, c :: hr, '\n' :: '\n' :: txt)]) := by
  intro fuel hfuel
  obtain ⟨f, rfl⟩ : ∃ f, fuel = f + 1 := ⟨fuel - 1, by omega⟩
  have ht0 := tryHeader_render (l0 + 1) c hr ('\n' :: txt) hcw hnl
  rw [if_neg (by omega)] at ht0
  have hrepl : List.replicate (l0 + 1) '#' ++ ' ' :: ((c :: hr) ++ '\n' :: '\n' :: txt) =
      '#' :: (List.replicate l0 '#' ++ ' ' :: ((c :: hr) ++ '\n' :: '\n' :: txt)) := by
    simp [List.replicate_succ]
  have hsplit : List.replicate (l0 + 1) '#' ++ ' ' :: ((c :: hr) ++ '\n' :: '\n' :: txt) =
      (List.replicate (l0 + 1) '#' ++ ' ' :: c :: hr) ++ '\n' :: '\n' :: txt := by
    simp [List.cons_append, List.append_assoc]
  have hlen : (List.replicate (l0 + 1) '#' ++ ' ' :: c :: hr).length =
      l0 + 1 + 1 + (c :: hr).length := by
    simp [List.length_append, List.length_replicate]
    omega
  have hdropLen :
      (List.replicate (l0 + 1) '#' ++ ' ' :: ((c :: hr) ++ '\n' :: '\n' :: txt)).drop
        (l0 + 1 + 1 + (c :: hr).length) = '\n' :: '\n' :: txt := by
    rw [hsplit, ← hlen, List.drop_left]
  rw [hrepl] at ht0 hdropLen ⊢
  simp only [scanHeadersF, ht0, if_true]
  rw [hdropLen, scanHeadersF_after_header f txt (by omega) htxt]

theorem scanHeadersF_after_header1 (f : Nat) (z : Str) (hf : 1 ≤ f)
    (hz : hashFree true z = true) :
    scanHeadersF f false ('\n' :: z) = ('\n' :: z, []) := by
  obtain ⟨f1, rfl⟩ : ∃ f1, f = f1 + 1 := ⟨f - 1, by omega⟩
  simp [scanHeadersF, scanHeadersF_no_match f1 true z hz]

theorem scanHeaders_header_then (l0 : Nat) (c : Char) (hr z : Str)
    (hcw : pyWS c = false) (hnl : '\n' ∉ c :: hr)
    (hz : hashFree true z = true) :
    ∀ fuel, l0 + 1 + 1 + (c :: hr).length + 1 + z.length < fuel →
    scanHeadersF fuel true
        (List.replicate (l0 + 1) '#' ++ ' ' :: ((c :: hr) ++ '\n' :: z)) =
      ([], [(l0 + 1, c :: hr, '\n' :: z)]) := by
  intro fuel hfuel
  obtain ⟨f, rfl⟩ : ∃ f, fuel = f + 1 := ⟨fuel - 1, by omega⟩
  have ht0 := tryHeader_render (l0 + 1) c hr z hcw hnl
  rw [if_neg (by omega)] at ht0
  have hrepl : List.replicate (l0 + 1) '#' ++ ' ' :: ((c :: hr) ++ '\n' :: z) =
      '#' :: (List.replicate l0 '#' ++ ' ' :: ((c :: hr) ++ '\n' :: z)) := by
    simp [List.replicate_succ]
  have hsplit : List.replicate (l0 + 1) '#' ++ ' ' :: ((c :: hr) ++ '\n' :: z) =
      (List.replicate (l0 + 1) '#' ++ ' ' :: c :: hr) ++ '\n' :: z := by
    simp [List.cons_append, List.append_assoc]
  have hlen : (List.replicate (l0 + 1) '#' ++ ' ' :: c :: hr).length =
      l0 + 1 + 1 + (c :: hr).length := by
    simp [List.length_append, List.length_replicate]
    omega
  have hdropLen :
      (List.replicate (l0 + 1) '#' ++ ' ' :: ((c :: hr) ++ '\n' :: z)).drop
        (l0 + 1 + 1 + (c :: hr).length) = '\n' :: z := by
    rw [hsplit, ← hlen, List.drop_left]
  rw [hrepl] at ht0 hdropLen ⊢
  simp only [scanHeadersF, ht0, if_true]
  rw [hdropLen, scanHeadersF_after_header1 f z (by omega) hz]

theorem head_ne_hash_of_not_comment (l : Str) (h : isCommentLine l = false) :
    l.head? ≠ some '#' := by
  intro hh
  cases l with
  | nil => simp at hh
  | cons c r =>
    simp only [List.head?_cons, Option.some.injEq] at hh
    subst hh
    have : lstrip ('#' :: r) = '#' :: r := by
      simp [lstrip, List.dropWhile_cons, pyWS]
    rw [isCommentLine, this] at h
    simp at h

theorem mem_joinPre (ch : Char) (xs : List Str) (h : ch ∈ joinPre xs) :
    ch = '\n' ∨ ∃ l ∈ xs, ch ∈ l := by
  rw [joinPre] at h
  cases xs with
  | nil => simp at h
  | cons x xs2 =>
    simp only [List.isEmpty_cons, Bool.false_eq_true, if_false, List.mem_append] at h
    rcases h with h | h
    · exact mem_joinNL ch (x :: xs2) h
    · simp at h
      exact Or.inl h

theorem mem_joinPost (ch : Char) (ys : List Str) (h : ch ∈ joinPost ys) :
    ch = '\n' ∨ ∃ l ∈ ys, ch ∈ l := by
  rw [joinPost] at h
  cases ys with
  | nil => simp at h
  | cons y ys2 =>
    simp only [List.isEmpty_cons, Bool.false_eq_true, if_false, List.mem_cons] at h
    rcases h with h | h
    · exact Or.inl h
    · exact mem_joinNL ch (y :: ys2) h

theorem maskLines_single (comment : Str) (pre post : List Str)
    (hcom : isCommentLine comment = true)
    (hprenc : ∀ l ∈ pre, isCommentLine l = false)
    (hpostnc : ∀ l ∈ post, isCommentLine l = false) :
    maskLines 0 (pre ++ comment :: post) =
      (pre ++ tokenStr 0 :: post, [(tokenStr 0, comment)], 1) := by
  rw [maskLines_append_nc 0 pre (comment :: post) hprenc]
  have h1 : maskLines 0 (comment :: post) =
      (tokenStr 0 :: post, [(tokenStr 0, comment)], 1) := by
    simp only [maskLines, hcom, if_true, maskLines_of_no_comments 1 post hpostnc]
  rw [h1]

theorem cbSub_single_block (lang comment : Str) (pre post : List Str) (f : Nat)
    (hnllang : '\n' ∉ lang) (hcom : isCommentLine comment = true)
    (hnl : ∀ l ∈ pre ++ comment :: post, '\n' ∉ l)
    (hbt : bt ∉ joinNL (pre ++ comment :: post))
    (hprenc : ∀ l ∈ pre, isCommentLine l = false)
    (hpostnc : ∀ l ∈ post, isCommentLine l = false) :
    cbSubF (f + 1) 0
        (triple ++ (lang ++ '\n' :: (joinNL (pre ++ comment :: post) ++ triple))) =
      (triple ++ joinNL (pre ++ tokenStr 0 :: post) ++ triple,
       [(tokenStr 0, comment)]) := by
  have hs1 : splitFirst ['\n']
      (lang ++ '\n' :: (joinNL (pre ++ comment :: post) ++ triple)) =
      some (lang, joinNL (pre ++ comment :: post) ++ triple) :=
    splitFirst_at_first '\n' [] lang (joinNL (pre ++ comment :: post) ++ triple) hnllang
  have hs2 : splitFirst triple (joinNL (pre ++ comment :: post) ++ triple) =
      some (joinNL (pre ++ comment :: post), []) := by
    have h := splitFirst_at_first bt [bt, bt] (joinNL (pre ++ comment :: post)) [] hbt
    rw [List.append_nil] at h
    exact h
  have hmatch : cbMatch (lang ++ '\n' :: (joinNL (pre ++ comment :: post) ++ triple)) =
      some (lang, joinNL (pre ++ comment :: post), []) := by
    simp only [cbMatch, hs1, hs2]
  have htry : cbTry
      (triple ++ (lang ++ '\n' :: (joinNL (pre ++ comment :: post) ++ triple))) =
      some (lang, joinNL (pre ++ comment :: post), []) := by
    have hP : isPre triple
        (triple ++ (lang ++ '\n' :: (joinNL (pre ++ comment :: post) ++ triple))) = true :=
      isPre_append_self _ _
    rw [cbTry, if_pos hP]
    have hdrop3 : (triple ++
        (lang ++ '\n' :: (joinNL (pre ++ comment :: post) ++ triple))).drop 3 =
        lang ++ '\n' :: (joinNL (pre ++ comment :: post) ++ triple) := rfl
    rw [hdrop3, hmatch]
  show cbSubF (f + 1) 0
      (bt :: (bt :: bt :: (lang ++ '\n' :: (joinNL (pre ++ comment :: post) ++ triple)))) = _
  simp only [cbSubF]
  rw [show (bt :: (bt :: bt :: (lang ++ '\n' ::
      (joinNL (pre ++ comment :: post) ++ triple)))) =
      triple ++ (lang ++ '\n' :: (joinNL (pre ++ comment :: post) ++ triple)) from rfl]
  simp only [htry, splitNL_joinNL_inv _ (by simp) hnl,
    maskLines_single comment pre post hcom hprenc hpostnc, cbSubF_nil]
  simp

/-! Lemmas about the hierarchy stack. Reachable stacks are strictly
decreasing in level from the top (the head, in this embedding). -/

theorem dropWhile_stack_lt (level : Nat) (stack : List (Nat × Str))
    (hs : stack.Pairwise (fun a b => b.1 < a.1)) :
    ∀ e ∈ stack.dropWhile (fun e => level ≤ e.1), e.1 < level := by
  induction stack with
  | nil => simp
  | cons x xs ih =>
    rcases List.pairwise_cons.mp hs with ⟨hx, hxs⟩
    by_cases hle : level ≤ x.1
    · simpa [List.dropWhile_cons, hle] using ih hxs
    · intro e he
      simp only [List.dropWhile_cons, decide_eq_true_eq, if_neg hle] at he
      rcases List.mem_cons.mp he with rfl | he
      · omega
      · have := hx e he
        omega

theorem push_stack_pairwise (level : Nat) (h : Str) (stack : List (Nat × Str))
    (hs : stack.Pairwise (fun a b => b.1 < a.1)) :
    ((level, h) :: stack.dropWhile (fun e => level ≤ e.1)).Pairwise
      (fun a b => b.1 < a.1) := by
  refine List.pairwise_cons.mpr ⟨dropWhile_stack_lt level stack hs, ?_⟩
  exact List.Pairwise.sublist (List.dropWhile_sublist _) hs

/-- C1: before recording parents, `split_text` pops from the hierarchy
stack every entry whose depth is greater than or equal to the current
header's depth. On every reachable stack — reachable stacks are strictly
decreasing in level from the top, and the pop-then-push step preserves
this — the popped stack holds only entries strictly shallower than the
current level, so a closed subtree cannot leak. On the document
`# H1 / ## H1.1 / # H2 / ## H2.1 / ### H2.1.1` the final section's
parents are exactly h1 = H2 and h2 = H2.1, and H1.1 appears in no
section's parents. -/
theorem c1_closed_subtrees_never_leak :
    (∀ (level : Nat) (stack : List (Nat × Str)),
        stack.Pairwise (fun a b => b.1 < a.1) →
        (∀ e ∈ stack.dropWhile (fun e => level ≤ e.1), e.1 < level) ∧
        (∀ (h : Str), ((level, h) :: stack.dropWhile (fun e => level ≤ e.1)).Pairwise
          (fun a b => b.1 < a.1))) ∧
    split "# H1\n## H1.1\n# H2\n## H2.1\n### H2.1.1" =
      [{ section_header := "H1".data, section_text := [], header_level := 1,
         parents := [] },
       { section_header := "H1.1".data, section_text := [], header_level := 2,
         parents := [("h1".data, "H1".data)] },
       { section_header := "H2".data, section_text := [], header_level := 1,
         parents := [] },
       { section_header := "H2.1".data, section_text := [], header_level := 2,
         parents := [("h1".data, "H2".data)] },
       { section_header := "H2.1.1".data, section_text := [], header_level := 3,
         parents := [("h1".data, "H2".data), ("h2".data, "H2.1".data)] }] ∧
    ((split "# H1\n## H1.1\n# H2\n## H2.1\n### H2.1.1").all fun sec =>
      sec.parents.all fun p => !(p.2 == "H1.1".data)) = true := by
  refine ⟨?_, by decide, by decide⟩
  intro level stack hs
  exact ⟨dropWhile_stack_lt level stack hs, fun h => push_stack_pairwise level h stack hs⟩

/-- Witness for C1: the popping property applied to the concrete stack
[(3, c), (1, a)] with current level 2. -/
theorem c1_closed_subtrees_never_leak_witness :
    ((1, "a".data) : Nat × Str) ∈
        ([(3, "c".data), (1, "a".data)] : List (Nat × Str)).dropWhile
          (fun e => 2 ≤ e.1) ∧
    ((1, "a".data) : Nat × Str).1 < 2 :=
  ⟨by decide,
   (c1_closed_subtrees_never_leak.1 2 [(3, "c".data), (1, "a".data)] (by decide)).1
     (1, "a".data) (by decide)⟩

/-- C2: the spec and the source's own comment ("Allow only H1 - H4
headers as parents") promise that `parents` carries keys for depths 1–4
only, but `_find_parent_headers` guards the assignment with
`level < current_level` alone, so a level-6 header whose stack holds a
level-5 ancestor records a key `h5`. Evaluating `split_text` at the
six-level document exhibits the violation: the final section's parents
mapping carries the keys h1–h5, with `parents["h5"] == "E"`. -/
theorem c2_parents_reach_h5 :
    (split "# A\n## B\n### C\n#### D\n##### E\n###### F").map
        (fun s => s.parents.map Prod.fst) =
      [[], ["h1".data], ["h1".data, "h2".data], ["h1".data, "h2".data, "h3".data],
       ["h1".data, "h2".data, "h3".data, "h4".data],
       ["h1".data, "h2".data, "h3".data, "h4".data, "h5".data]] ∧
    (split "# A\n## B\n### C\n#### D\n##### E\n###### F").map
        (fun s => s.parents.lookup "h5".data) =
      [none, none, none, none, none, some "E".data] := by
  constructor <;> decide

/-! Equality of the two splitter variants, proved bottom-up through the
duplicated helpers. -/

theorem utils_isCommentLine_eq (l : Str) :
    Utils.isCommentLine l = isCommentLine l := by
  unfold Utils.isCommentLine isCommentLine
  cases lstrip l <;> rfl

theorem utils_tokenStr_eq : Utils.tokenStr = tokenStr := rfl

theorem utils_maskLines_eq : ∀ (ls : List Str) (c : Nat),
    Utils.maskLines c ls = maskLines c ls := by
  intro ls
  induction ls with
  | nil => intro c; rfl
  | cons line rest ih =>
    intro c
    simp only [Utils.maskLines, maskLines, utils_isCommentLine_eq, utils_tokenStr_eq, ih]

theorem utils_cbSubF_eq : ∀ (fuel c : Nat) (s : Str),
    Utils.cbSubF fuel c s = cbSubF fuel c s := by
  intro fuel
  induction fuel with
  | zero => intro c s; rfl
  | succ f ih =>
    intro c s
    cases s with
    | nil => rfl
    | cons ch rest =>
      simp only [Utils.cbSubF, cbSubF]
      cases h : cbTry (ch :: rest) with
      | none => simp only [h, ih]
      | some p =>
        obtain ⟨pre, body, after⟩ := p
        simp only [h, ih, utils_maskLines_eq]

theorem utils_findParentHeaders_eq (current : Nat) (stack : List (Nat × Str)) :
    Utils.findParentHeaders current stack = findParentHeaders current stack := rfl

theorem utils_buildSections_eq (rmap : List (Str × Str)) :
    ∀ (ms : List (Nat × Str × Str)) (stack : List (Nat × Str)),
    Utils.buildSections rmap ms stack = buildSections rmap ms stack := by
  intro ms
  induction ms with
  | nil => intro stack; rfl
  | cons m rest ih =>
    intro stack
    obtain ⟨k, g2, gap⟩ := m
    simp only [Utils.buildSections, buildSections, utils_findParentHeaders_eq, ih]

/-- C10: the two duplicated `MarkdownSplitter.split_text` variants — in
`components/splitters.py` and `utils/splitters.py` — are extensionally
equal: on every input string they produce the same ordered sequence of
sections, agreeing on header, text, level, and the pruned parents
mapping. The bodies differ only by logging calls and by the section
class used, which carries the same four fields in both variants. -/
theorem c10_variants_extensionally_equal : ∀ t : Str, Utils.splitText t = splitText t := by
  intro t
  unfold Utils.splitText splitText
  by_cases h : strip t = []
  · simp [h]
  · simp only [if_neg h, Utils.processCodeBlocks, processCodeBlocks,
      utils_cbSubF_eq, utils_buildSections_eq]

/-- C3 counterexample: the masking step does not leave a comment-free
code block structurally unchanged. For the block
` ```python\nx = 1\n``` ` no substitution is made (the replacement map is
empty), yet the masked text drops the language tag `python` together
with the newline after the opening fence, so the claimed verbatim
persistence fails. -/
theorem c3_masking_drops_language_tag :
    processCodeBlocks "```python\nx = 1\n```".data ≠
      ("```python\nx = 1\n```".data, []) ∧
    processCodeBlocks "```python\nx = 1\n```".data = ("```x = 1\n```".data, []) := by
  constructor <;> decide

/-- C3 amended: a fenced code block none of whose body lines begins
(after leading whitespace) with `#` receives no substitutions and its
body lines persist verbatim, but the block is not structurally
unchanged: the replacement emitted for the match is the opening fence
immediately followed by the body and the closing fence, so the language
tag and the newline after the opening fence are dropped. -/
theorem c3_amended_body_persists_tag_dropped :
    (∀ (c : Nat) (body : Str),
        (∀ line ∈ splitNL body, isCommentLine line = false) →
        maskLines c (splitNL body) = (splitNL body, [], c) ∧
        triple ++ joinNL (maskLines c (splitNL body)).1 ++ triple =
          triple ++ body ++ triple) ∧
    processCodeBlocks "```python\nx = 1\n```".data = ("```x = 1\n```".data, []) := by
  refine ⟨?_, by decide⟩
  intro c body h
  have hm := maskLines_of_no_comments c (splitNL body) h
  exact ⟨hm, by rw [hm, joinNL_splitNL]⟩

/-- Witness for C3 amended: the comment-free body `x = 1\n` is masked to
itself with an empty map. -/
theorem c3_amended_witness :
    maskLines 0 (splitNL "x = 1\n".data) = (splitNL "x = 1\n".data, [], 0) :=
  (c3_amended_body_persists_tag_dropped.1 0 "x = 1\n".data (by decide)).1

/-- C4 counterexample: masking is not reversible for every input. In
`"# H\n#\n```\n# c\n```"` the fenced block's comment line `# c` is
masked, but the header pattern then matches across the bare `#` line
(`\s+` consumes the newline), swallowing the masked fence line into a
header; the commented line `# c` is reproduced in no section text, and
the raw token surfaces in a section header instead. -/
theorem c4_comment_line_lost :
    split "# H\n#\n```\n# c\n```" =
      [{ section_header := "H".data, section_text := [], header_level := 1,
         parents := [] },
       { section_header := ("```" ++ "\x7b\x7bCODE_COMMENT_0\x7d\x7d").data,
         section_text := "```".data, header_level := 1, parents := [] }] ∧
    ((split "# H\n#\n```\n# c\n```").all fun sec =>
      !containsSub "# c".data sec.section_text) = true := by
  constructor <;> decide

/-- C4 amended: masking is reversible at the replacement-map level —
every map entry maps its token to the original commented line verbatim,
including indentation — and in a document whose masked fence is not
intercepted by a cross-line header match, such as the representative
`# Header\n```python\n    # Code block comment\nx = 1\n```` document,
the commented line is not treated as a header and the single section's
unmasked text reproduces it exactly, indentation included. -/
theorem c4_amended_map_level_reversibility :
    (∀ (c : Nat) (lines : List Str) (tok orig : Str),
        (tok, orig) ∈ (maskLines c lines).2.1 →
        orig ∈ lines ∧ isCommentLine orig = true) ∧
    split "# Header\n```python\n    # Code block comment\nx = 1\n```" =
      [{ section_header := "Header".data,
         section_text := "```    # Code block comment\nx = 1\n```".data,
         header_level := 1, parents := [] }] ∧
    containsSub "    # Code block comment".data
      "```    # Code block comment\nx = 1\n```".data = true := by
  refine ⟨?_, by decide, by decide⟩
  intro c lines tok orig h
  exact maskLines_entry_mem c lines tok orig h

/-- Witness for C4 amended: in the representative document's code block,
token 0 is mapped to the indented comment line itself. -/
theorem c4_amended_witness :
    ("    # Code block comment".data ∈
        splitNL "    # Code block comment\nx = 1\n".data) ∧
    isCommentLine "    # Code block comment".data = true :=
  c4_amended_map_level_reversibility.1 0
    (splitNL "    # Code block comment\nx = 1\n".data)
    (tokenStr 0) "    # Code block comment".data (by decide)

/-- C5 counterexample: headers are not exactly the lines of the stated
shape. In `"#\nA"` no single line matches the header pattern (the line
`#` has no whitespace-plus-text after the marks, and the line `A` has no
marks), yet `split_text` produces a section: the `\s+` of the pattern
consumes the newline, so the match spans both lines, giving a level-1
section with header `A`. -/
theorem c5_header_match_spans_lines :
    ((splitNL "#\nA".data).all fun l => !specHeaderLine l) = true ∧
    split "#\nA" =
      [{ section_header := "A".data, section_text := [], header_level := 1,
         parents := [] }] := by
  constructor <;> decide

/-- C5 amended: a header is any match of the pattern in multi-line mode:
at a line start, one or more `#` marks, then at least one whitespace
character — which may include newlines, so that a match can span lines —
then non-empty text free of newlines extending to the end of a line.
The section's level equals the count of `#` marks and its stored header
text is the trailing content trimmed: `split("### Header\nBody")` yields
one section with level 3 and header `Header`. -/
theorem c5_amended_match_shape :
    (∀ (s : Str) (k j : Nat) (g2 : Str), tryHeader s = some (k, j, g2) →
        1 ≤ k ∧ s.take k = List.replicate k '#' ∧ 1 ≤ j ∧
        (∀ c ∈ (s.drop k).take j, pyWS c = true) ∧ g2 ≠ [] ∧ '\n' ∉ g2 ∧
        g2 = takeLine ((s.drop k).drop j)) ∧
    split "### Header\nBody" =
      [{ section_header := "Header".data, section_text := "Body".data,
         header_level := 3, parents := [] }] := by
  exact ⟨tryHeader_sound, by decide⟩

/-- Witness for C5 amended: the match shape at the concrete line-start
text `### Header\nBody`. -/
theorem c5_amended_witness :
    1 ≤ 3 ∧ "### Header\nBody".data.take 3 = List.replicate 3 '#' ∧ 1 ≤ 1 ∧
    (∀ c ∈ ("### Header\nBody".data.drop 3).take 1, pyWS c = true) ∧
    ("Header".data : Str) ≠ [] ∧ '\n' ∉ "Header".data ∧
    "Header".data = takeLine (("### Header\nBody".data.drop 3).drop 1) :=
  c5_amended_match_shape.1 "### Header\nBody".data 3 1 "Header".data (by decide)

/-- C6 counterexample: the round trip fails for a section produced from a
document with a fenced code block. Splitting `"# H\n```py\nx\n```"`
yields the single section `(H, "```x\n```", 1)`; rendering it back and
re-splitting turns its body into six bare backticks, because the code
block's first body line is consumed as the language tag of the re-parsed
fence. -/
theorem c6_roundtrip_fails_on_fences :
    split "# H\n```py\nx\n```" =
      [{ section_header := "H".data, section_text := "```x\n```".data,
         header_level := 1, parents := [] }] ∧
    toMarkdown { section_header := "H".data, section_text := "```x\n```".data,
                 header_level := 1, parents := [] } = "# H\n\n```x\n```".data ∧
    splitText (toMarkdown { section_header := "H".data,
                            section_text := "```x\n```".data,
                            header_level := 1, parents := [] }) =
      [{ section_header := "H".data, section_text := "``````".data,
         header_level := 1, parents := [] }] ∧
    ("``````".data : Str) ≠ "```x\n```".data := by
  refine ⟨by decide, by decide, by decide, by decide⟩

/-- Parent computation for a first header on an empty stack: no entry of
the initialized dictionary is ever assigned, so pruning leaves nothing. -/
theorem findParentHeaders_single (l : Nat) (h : Str) :
    findParentHeaders l [(l, h)] = [] := by
  simp [findParentHeaders, dictSet, List.filterMap]

/-- C6 amended: the round trip holds for every section whose level is at
least 1 and whose header is nonempty, trimmed, and free of newlines,
provided header and text contain no backtick (so that the rendered
Markdown holds no code fence), no line of the text begins with `#`, and
the text is trimmed (all of which `split_text` itself guarantees for
fence-free documents): rendering the section with `to_markdown` and
splitting again yields exactly one section with the same header, text,
and level, and an empty parents mapping. Sections whose text contains a
code fence can fail the round trip, as the counterexample shows. -/
theorem c6_amended_roundtrip :
    ∀ sec : Section,
      1 ≤ sec.header_level →
      sec.section_header ≠ [] →
      strip sec.section_header = sec.section_header →
      '\n' ∉ sec.section_header →
      bt ∉ sec.section_header →
      bt ∉ sec.section_text →
      strip sec.section_text = sec.section_text →
      (∀ line ∈ splitNL sec.section_text, line.head? ≠ some '#') →
      splitText (toMarkdown sec) =
        [{ section_header := sec.section_header, section_text := sec.section_text,
           header_level := sec.header_level, parents := [] }] := by
  rintro ⟨hdr, txt, lvl, ps⟩ hl hne hstriph hnl hbth hbtt hstript hlines
  dsimp only at hl hne hstriph hnl hbth hbtt hstript hlines ⊢
  obtain ⟨c, hr, rfl⟩ : ∃ c hr, hdr = c :: hr := by
    cases hdr with
    | nil => exact absurd rfl hne
    | cons c hr => exact ⟨c, hr, rfl⟩
  have hcw : pyWS c = false := head_not_ws_of_strip _ hstriph c hr rfl
  obtain ⟨l0, rfl⟩ : ∃ l0, lvl = l0 + 1 := ⟨lvl - 1, by omega⟩
  have hrender : toMarkdown ⟨c :: hr, txt, l0 + 1, ps⟩ =
      List.replicate (l0 + 1) '#' ++ ' ' :: ((c :: hr) ++ '\n' :: '\n' :: txt) := by
    simp [toMarkdown, List.cons_append]
  have hconsform : List.replicate (l0 + 1) '#' ++ ' ' :: ((c :: hr) ++ '\n' :: '\n' :: txt) =
      '#' :: (List.replicate l0 '#' ++ ' ' :: ((c :: hr) ++ '\n' :: '\n' :: txt)) := by
    simp [List.replicate_succ]
  have hA : strip (toMarkdown ⟨c :: hr, txt, l0 + 1, ps⟩) ≠ [] := by
    rw [hrender, hconsform]
    exact strip_ne_nil_of_head '#' _ (by decide)
  have hbt : bt ∉ toMarkdown ⟨c :: hr, txt, l0 + 1, ps⟩ := by
    rw [hrender]
    intro hmem
    rcases List.mem_append.mp hmem with h1 | h2
    · exact absurd (List.eq_of_mem_replicate h1) (by decide)
    · rcases List.mem_cons.mp h2 with h3 | h4
      · exact absurd h3 (by decide)
      · rcases List.mem_append.mp h4 with h5 | h6
        · exact hbth h5
        · rcases List.mem_cons.mp h6 with h7 | h8
          · exact absurd h7 (by decide)
          · rcases List.mem_cons.mp h8 with h9 | h10
            · exact absurd h9 (by decide)
            · exact hbtt h10
  have hmask : processCodeBlocks (toMarkdown ⟨c :: hr, txt, l0 + 1, ps⟩) =
      (toMarkdown ⟨c :: hr, txt, l0 + 1, ps⟩, []) :=
    cbSubF_no_backtick _ 0 _ hbt
  have htxtfree : hashFree true txt = true := (hashFree_of_lines txt).1 hlines
  have hscan : scanHeaders true (toMarkdown ⟨c :: hr, txt, l0 + 1, ps⟩) =
      ([], [(l0 + 1, c :: hr, '\n' :: '\n' :: txt)]) := by
    rw [scanHeaders, hrender]
    refine scanHeaders_render_section l0 c hr txt hcw hnl htxtfree _ ?_
    simp [List.length_append, List.length_replicate]
    omega
  rw [splitText, if_neg hA, hmask]
  simp only [hscan]
  rw [buildSections]
  simp only [buildSections, List.dropWhile_nil]
  rw [hstriph, strip_cons2_nl txt hstript, findParentHeaders_single]
  rfl

/-- Witness for C6 amended: the round trip at the concrete section
(H, Body, level 1) carrying a stale parents entry. -/
theorem c6_amended_roundtrip_witness :
    splitText (toMarkdown { section_header := "H".data, section_text := "Body".data,
                            header_level := 1,
                            parents := [("h1".data, "X".data)] }) =
      [{ section_header := "H".data, section_text := "Body".data,
         header_level := 1, parents := [] }] :=
  c6_amended_roundtrip _ (by decide) (by decide) (by decide) (by decide)
    (by decide) (by decide) (by decide) (by decide)

/-- C7 counterexample: a generated masking token can appear in the final
output. If the document itself contains the delimiter — here the code
block holds the comment line `# {{CODE_COMMENT_0}}` — then that line is
recorded as the original of token `{{CODE_COMMENT_0}}`, and unmasking
reinserts it, so the final section text contains both the literal
delimiter and the full generated token. -/
theorem c7_token_survives_unmasking :
    (processCodeBlocks "# H\n```\n# \x7b\x7bCODE_COMMENT_0\x7d\x7d\n```".data).2 =
      [(tokenStr 0, "# \x7b\x7bCODE_COMMENT_0\x7d\x7d".data)] ∧
    split "# H\n```\n# \x7b\x7bCODE_COMMENT_0\x7d\x7d\n```" =
      [{ section_header := "H".data,
         section_text := "```# \x7b\x7bCODE_COMMENT_0\x7d\x7d\n```".data,
         header_level := 1, parents := [] }] ∧
    containsSub (tokenStr 0)
      "```# \x7b\x7bCODE_COMMENT_0\x7d\x7d\n```".data = true ∧
    containsSub tokenDelim
      "```# \x7b\x7bCODE_COMMENT_0\x7d\x7d\n```".data = true := by
  refine ⟨by decide, by decide, by decide, by decide⟩

/-- C7 amended: generated masking tokens never leak for inputs that
cannot collide with the token format. For every document made of a
header line and one fenced code block — any language tag, any body
lines around one comment line, all free of backticks and of the `{`
character (so the delimiter `{{CODE_COMMENT_` cannot occur in the
input) — the splitter returns a single section whose text is the code
block with the masked comment line restored verbatim, and that text
contains no occurrence of the masking delimiter. -/
theorem c7_amended_tokens_never_leak :
    ∀ (hdr lang comment : Str) (pre post : List Str),
      hdr ≠ [] → strip hdr = hdr → '\n' ∉ hdr → bt ∉ hdr →
      '\n' ∉ lang →
      isCommentLine comment = true → '\n' ∉ comment → bt ∉ comment → obr ∉ comment →
      (∀ l ∈ pre, isCommentLine l = false ∧ '\n' ∉ l ∧ bt ∉ l ∧ obr ∉ l) →
      (∀ l ∈ post, isCommentLine l = false ∧ '\n' ∉ l ∧ bt ∉ l ∧ obr ∉ l) →
      splitText ('#' :: ' ' :: (hdr ++ '\n' :: (triple ++ (lang ++ '\n' ::
          (joinNL (pre ++ comment :: post) ++ triple))))) =
        [{ section_header := hdr,
           section_text := triple ++ joinNL (pre ++ comment :: post) ++ triple,
           header_level := 1, parents := [] }] ∧
      containsSub tokenDelim
        (triple ++ joinNL (pre ++ comment :: post) ++ triple) = false := by
  intro hdr lang comment pre post hne hstriph hnlh hbth hnllang hcom hnlc hbtc hobrc hpre hpost
  obtain ⟨c, hr, rfl⟩ : ∃ c hr, hdr = c :: hr := by
    cases hdr with
    | nil => exact absurd rfl hne
    | cons c hr => exact ⟨c, hr, rfl⟩
  have hcw : pyWS c = false := head_not_ws_of_strip _ hstriph c hr rfl
  have hbody_nl : ∀ l ∈ pre ++ comment :: post, '\n' ∉ l := by
    intro l hl
    rcases List.mem_append.mp hl with h | h
    · exact (hpre l h).2.1
    · rcases List.mem_cons.mp h with rfl | h
      · exact hnlc
      · exact (hpost l h).2.1
  have hbody_bt : bt ∉ joinNL (pre ++ comment :: post) := by
    intro hm
    rcases mem_joinNL bt _ hm with h | ⟨l, hl, hc2⟩
    · exact absurd h (by decide)
    · rcases List.mem_append.mp hl with h | h
      · exact (hpre l h).2.2.1 hc2
      · rcases List.mem_cons.mp h with rfl | h
        · exact hbtc hc2
        · exact (hpost l h).2.2.1 hc2
  have hbtx : bt ∉ ('#' :: ' ' :: ((c :: hr) ++ ['\n']) : Str) := by
    intro hm
    rcases List.mem_cons.mp hm with h | hm2
    · exact absurd h (by decide)
    rcases List.mem_cons.mp hm2 with h | hm3
    · exact absurd h (by decide)
    rcases List.mem_append.mp hm3 with h | h
    · exact hbth h
    · simp at h
      exact absurd h (by decide)
  have hxsplit : ('#' :: ' ' :: ((c :: hr) ++ '\n' :: (triple ++ (lang ++ '\n' ::
      (joinNL (pre ++ comment :: post) ++ triple)))) : Str) =
      ('#' :: ' ' :: ((c :: hr) ++ ['\n'])) ++ (triple ++ (lang ++ '\n' ::
        (joinNL (pre ++ comment :: post) ++ triple))) := by
    simp [List.cons_append, List.append_assoc]
  have hM2 := cbSub_single_block lang comment pre post
    (triple ++ (lang ++ '\n' :: (joinNL (pre ++ comment :: post) ++ triple))).length
    hnllang hcom hbody_nl hbody_bt (fun l hl => (hpre l hl).1) (fun l hl => (hpost l hl).1)
  have hM : processCodeBlocks ('#' :: ' ' :: ((c :: hr) ++ '\n' :: (triple ++ (lang ++ '\n' ::
      (joinNL (pre ++ comment :: post) ++ triple))))) =
      (('#' :: ' ' :: ((c :: hr) ++ ['\n'])) ++
        (triple ++ joinNL (pre ++ tokenStr 0 :: post) ++ triple),
       [(tokenStr 0, comment)]) := by
    rw [processCodeBlocks, hxsplit]
    have hlen2 : (((('#' :: ' ' :: ((c :: hr) ++ ['\n'])) : Str) ++ (triple ++ (lang ++ '\n' ::
        (joinNL (pre ++ comment :: post) ++ triple)))).length + 1) =
        (('#' :: ' ' :: ((c :: hr) ++ ['\n'])) : Str).length +
          ((triple ++ (lang ++ '\n' ::
            (joinNL (pre ++ comment :: post) ++ triple))).length + 1) := by
      simp [List.length_append]
      omega
    rw [hlen2, cbSubF_append_no_bt _ hbtx _ 0 _, hM2]
  have hheads : ∀ l ∈ pre ++ tokenStr 0 :: post, l.head? ≠ some '#' := by
    intro l hl
    rcases List.mem_append.mp hl with h | h
    · exact head_ne_hash_of_not_comment l (hpre l h).1
    · rcases List.mem_cons.mp h with rfl | h
      · decide
      · exact head_ne_hash_of_not_comment l (hpost l h).1
  have hmasked_nl : ∀ l ∈ pre ++ tokenStr 0 :: post, '\n' ∉ l := by
    intro l hl
    rcases List.mem_append.mp hl with h | h
    · exact (hpre l h).2.1
    · rcases List.mem_cons.mp h with rfl | h
      · decide
      · exact (hpost l h).2.1
  have hzhf : hashFree true (triple ++ (joinNL (pre ++ tokenStr 0 :: post) ++ triple)) =
      true := by
    refine hashFree_append triple true _ (by decide) ?_
    rw [show endState true triple = false from by decide]
    refine hashFree_append (joinNL (pre ++ tokenStr 0 :: post)) false triple ?_ ?_
    · exact hashFree_joinNL _ hheads hmasked_nl false
    · revert hpre
      intro _
      exact (by decide : ∀ b : Bool, hashFree b triple = true) _
  have hscan : scanHeaders true (('#' :: ' ' :: ((c :: hr) ++ ['\n'])) ++
      (triple ++ joinNL (pre ++ tokenStr 0 :: post) ++ triple)) =
      ([], [(1, c :: hr, '\n' :: (triple ++ (joinNL (pre ++ tokenStr 0 :: post) ++
        triple)))]) := by
    have hshape : ((('#' :: ' ' :: ((c :: hr) ++ ['\n'])) : Str) ++
        (triple ++ joinNL (pre ++ tokenStr 0 :: post) ++ triple)) =
        List.replicate (0 + 1) '#' ++ ' ' :: ((c :: hr) ++ '\n' ::
          (triple ++ (joinNL (pre ++ tokenStr 0 :: post) ++ triple))) := by
      simp [List.cons_append, List.append_assoc, List.replicate]
    rw [scanHeaders, hshape]
    refine scanHeaders_header_then 0 c hr _ hcw hnlh hzhf _ ?_
    simp [List.length_append, List.length_replicate]
    omega
  have hstripgap : strip ('\n' :: (triple ++ (joinNL (pre ++ tokenStr 0 :: post) ++
      triple))) = triple ++ (joinNL (pre ++ tokenStr 0 :: post) ++ triple) := by
    have h1 : lstrip ('\n' :: (triple ++ (joinNL (pre ++ tokenStr 0 :: post) ++
        triple))) = triple ++ (joinNL (pre ++ tokenStr 0 :: post) ++ triple) := by
      show List.dropWhile pyWS ('\n' :: (triple ++ (joinNL (pre ++ tokenStr 0 :: post) ++
        triple))) = _
      rw [List.dropWhile_cons]
      rw [if_pos (by decide)]
      show List.dropWhile pyWS (bt :: (bt :: bt :: (joinNL (pre ++ tokenStr 0 :: post) ++
        triple))) = _
      rw [List.dropWhile_cons, if_neg (by decide)]
      rfl
    have h2 : rstrip (triple ++ (joinNL (pre ++ tokenStr 0 :: post) ++ triple)) =
        triple ++ (joinNL (pre ++ tokenStr 0 :: post) ++ triple) := by
      have hdeco : triple ++ (joinNL (pre ++ tokenStr 0 :: post) ++ triple) =
          (triple ++ (joinNL (pre ++ tokenStr 0 :: post) ++ [bt, bt])) ++ [bt] := by
        simp [triple, List.append_assoc]
      rw [hdeco, rstrip_append_last _ bt (by decide), ← hdeco]
    rw [strip, h1, h2]
  obtain ⟨tkt, htok⟩ : ∃ tkt, tokenStr 0 = obr :: tkt := ⟨_, rfl⟩
  have hxUchars : ∀ ch ∈ triple ++ joinPre pre, ch ≠ obr := by
    intro ch hm
    rcases List.mem_append.mp hm with h | h
    · have : ch = bt := by simpa [triple] using h
      subst this
      decide
    · rcases mem_joinPre ch pre h with rfl | ⟨l, hl, hc2⟩
      · decide
      · exact fun heq => (hpre l hl).2.2.2 (heq ▸ hc2)
  have hyUchars : ∀ ch ∈ joinPost post ++ triple, ch ≠ obr := by
    intro ch hm
    rcases List.mem_append.mp hm with h | h
    · rcases mem_joinPost ch post h with rfl | ⟨l, hl, hc2⟩
      · decide
      · exact fun heq => (hpost l hl).2.2.2 (heq ▸ hc2)
    · have : ch = bt := by simpa [triple] using h
      subst this
      decide
  have hzdeco : triple ++ (joinNL (pre ++ tokenStr 0 :: post) ++ triple) =
      (triple ++ joinPre pre) ++ (tokenStr 0 ++ (joinPost post ++ triple)) := by
    rw [joinNL_decomp pre (tokenStr 0) post]
    simp [List.append_assoc]
  have hreplace : replaceAll (tokenStr 0) comment
      (triple ++ (joinNL (pre ++ tokenStr 0 :: post) ++ triple)) =
      (triple ++ joinPre pre) ++ comment ++ (joinPost post ++ triple) := by
    rw [replaceAll, hzdeco, htok]
    have hkey := replaceAllF_exact obr tkt comment (triple ++ joinPre pre)
      (joinPost post ++ triple)
      (((triple ++ joinPre pre) ++ ((obr :: tkt) ++ (joinPost post ++ triple))).length)
      hxUchars hyUchars (by simp [List.length_append])
    simpa [List.append_assoc, List.length_append] using hkey
  have hfinal : ((triple ++ joinPre pre) ++ comment ++ (joinPost post ++ triple) : Str) =
      triple ++ joinNL (pre ++ comment :: post) ++ triple := by
    rw [joinNL_decomp pre comment post]
    simp [List.append_assoc]
  constructor
  · rw [splitText, if_neg (strip_ne_nil_of_head '#' _ (by decide))]
    rw [hM]
    simp only [hscan]
    rw [buildSections]
    simp only [buildSections, List.dropWhile_nil]
    rw [hstriph, findParentHeaders_single, hstripgap]
    have hunm : unmask [(tokenStr 0, comment)]
        (triple ++ (joinNL (pre ++ tokenStr 0 :: post) ++ triple)) =
        replaceAll (tokenStr 0) comment
          (triple ++ (joinNL (pre ++ tokenStr 0 :: post) ++ triple)) := rfl
    rw [hunm, hreplace, hfinal]
  · have hfchars : ∀ ch ∈ triple ++ joinNL (pre ++ comment :: post) ++ triple,
        ch ≠ obr := by
      intro ch hm
      rcases List.mem_append.mp hm with h | h
      · rcases List.mem_append.mp h with h | h
        · have : ch = bt := by simpa [triple] using h
          subst this
          decide
        · rcases mem_joinNL ch _ h with rfl | ⟨l, hl, hc2⟩
          · decide
          · rcases List.mem_append.mp hl with h2 | h2
            · exact fun heq => (hpre l h2).2.2.2 (heq ▸ hc2)
            · rcases List.mem_cons.mp h2 with rfl | h2
              · exact fun heq => hobrc (heq ▸ hc2)
              · exact fun heq => (hpost l h2).2.2.2 (heq ▸ hc2)
      · have : ch = bt := by simpa [triple] using h
        subst this
        decide
    obtain ⟨dt, hdt⟩ : ∃ dt, tokenDelim = obr :: dt := ⟨_, rfl⟩
    rw [containsSub, hdt, splitFirst_none_of_no_head obr dt _ hfchars]
    rfl

/-- Witness for C7 amended: the family theorem applied to the concrete
document `# Title` with block ` ```python / x = 1 /   # note / y = 2 ``` `. -/
theorem c7_amended_tokens_never_leak_witness :
    splitText ('#' :: ' ' :: ("Title".data ++ '\n' :: (triple ++ ("python".data ++ '\n' ::
        (joinNL (["x = 1".data] ++ "  # note".data :: ["y = 2".data]) ++ triple))))) =
      [{ section_header := "Title".data,
         section_text := triple ++
           joinNL (["x = 1".data] ++ "  # note".data :: ["y = 2".data]) ++ triple,
         header_level := 1, parents := [] }] ∧
    containsSub tokenDelim
      (triple ++ joinNL (["x = 1".data] ++ "  # note".data :: ["y = 2".data]) ++
        triple) = false :=
  c7_amended_tokens_never_leak "Title".data "python".data "  # note".data
    ["x = 1".data] ["y = 2".data] (by decide) (by decide) (by decide) (by decide)
    (by decide) (by decide) (by decide) (by decide) (by decide) (by decide) (by decide)

/-- C8 counterexample: an input none of whose lines matches the header
pattern can still split into sections. In `"#\nB"` neither line is a
header by the stated per-line criterion, yet `split_text` returns one
section, because the header match spans the newline. -/
theorem c8_sections_without_header_line :
    ((splitNL "#\nB".data).all fun l => !specHeaderLine l) = true ∧
    split "#\nB" ≠ [] := by
  constructor <;> decide

/-- C8 amended: input that is empty after trimming yields an empty
sequence, the header scan never being consulted; and any input whose
masked text contains no match of the header pattern — a match may span
lines through its whitespace — also yields an empty sequence, with no
preamble section synthesized for text preceding the first header. -/
theorem c8_amended_empty_results :
    (∀ t : Str, strip t = [] → splitText t = []) ∧
    (∀ t : Str, (scanHeaders true (processCodeBlocks t).1).2 = [] → splitText t = []) ∧
    split "just prose\nno markers here" = [] := by
  refine ⟨?_, ?_, by decide⟩
  · intro t h
    simp [splitText, h]
  · intro t h
    by_cases hs : strip t = []
    · simp [splitText, hs]
    · simp only [splitText, if_neg hs, h]
      rfl

/-- Witness for C8 amended: both empty-result paths at concrete inputs. -/
theorem c8_amended_empty_results_witness :
    splitText "  \t\n".data = [] ∧ splitText "plain text only".data = [] :=
  ⟨c8_amended_empty_results.1 "  \t\n".data (by decide),
   c8_amended_empty_results.2.1 "plain text only".data (by decide)⟩

/-- C9: `from_file` raises the not-found error kind when the path does
not exist and the is-a-directory error kind when it refers to a
directory, in both cases for every possible read outcome (so before any
read attempt); when the path is a readable file, a read error propagates
untranslated, and otherwise the splitter runs on the file's text. -/
theorem c9_from_file_error_kinds :
    (∀ (path : String) (d : Bool) (r : Except String String),
        fromFile path ⟨false, d, r⟩ =
          Except.error (.notFound
            ("Unable to find the Markdown in the specified location: " ++ path))) ∧
    (∀ (path : String) (r : Except String String),
        fromFile path ⟨true, true, r⟩ =
          Except.error (.isADirectory ("The provided path is a directory: " ++ path))) ∧
    (∀ (path e : String),
        fromFile path ⟨true, false, Except.error e⟩ =
          Except.error (.readFailure e)) ∧
    (∀ (path content : String),
        fromFile path ⟨true, false, Except.ok content⟩ =
          Except.ok (split content)) := by
  exact ⟨fun _ _ _ => rfl, fun _ _ => rfl, fun _ _ => rfl, fun _ _ => rfl⟩

end MarkdownChunkify
